import Mathlib

/-!
Shallow embedding of the dataset-analysis pipeline in data_analysis.py.

Modelling conventions.
* A Row holds the six required columns of one CSV record.  The three numeric
  cells are Option ℚ values describing the state after the coerce step
  (pd.to_numeric with coercion): none stands for a cell that was empty or
  not parseable as a number, some q for a parsed numeric value.
* pandas groupby sorts the group keys ascending; this is modelled by
  sortedKeys, an insertion of the distinct keys into an ascending list.
* DataFrame.sort_values with ascending=False is modelled after pandas
  nargsort: the NaN (none) keyed rows are moved to the end in their
  original relative order, and the remaining rows are sorted descending by
  the key, here with the structurally recursive insertion sort isort.  The
  model's sort is stable; pandas' default single-column kind (quicksort)
  is documented as not stable, so the program leaves the relative order of
  equal keys unspecified.  The model therefore agrees with the program on
  the order of distinct keys and on NaN placement, and no theorem below
  asserts an equal-key order of a single-column sort_values of the
  program.  The multi-key sort of step 9 is different: pandas sorts
  several columns with its stable lexsort (the kind option applies only to
  single-column sorts), so there the stable model is exact.
* groupby(...).head(n) keeps exactly the rows whose within-group running
  count is below n, preserving the order of the sorted frame; headPerGroupAux
  models this with an explicit per-key counter.
* The filesystem side of main (os.makedirs, to_csv, open/write, savefig) is
  modelled as a trace of effects, and the raised exceptions
  (FileNotFoundError, ValueError for missing columns, the ValueError that
  Series.idxmax raises on an empty/all-NaN column) as an Except error value.
-/

structure Row where
  diet_type : String
  recipe_name : String
  cuisine_type : String
  protein_g : Option ℚ
  carbs_g : Option ℚ
  fat_g : Option ℚ
deriving DecidableEq

/-- Mean of a numeric column over its non-null values, as pandas
Series.mean with skipna: none when every value is null. -/
def colMean (get : Row → Option ℚ) (rows : List Row) : Option ℚ :=
  let vs := rows.filterMap get
  if vs.isEmpty then none else some (vs.sum / (vs.length : ℚ))

/-- One cell of DataFrame.fillna: a null cell becomes the fill value
(itself possibly null), a non-null cell is kept. -/
def fillCell (m : Option ℚ) : Option ℚ → Option ℚ
  | none => m
  | some v => some v

/-- Steps 3 and 4 of main: the three column means are computed once over the
whole dataset, then every null cell is filled with its column mean. -/
def imputeRows (rows : List Row) : List Row :=
  let mp := colMean (fun r => r.protein_g) rows
  let mc := colMean (fun r => r.carbs_g) rows
  let mf := colMean (fun r => r.fat_g) rows
  rows.map fun r =>
    { r with
      protein_g := fillCell mp r.protein_g
      carbs_g := fillCell mc r.carbs_g
      fat_g := fillCell mf r.fat_g }

/-- safe_divide of data_analysis.py: the denominator has 0 replaced by NaN,
then the elementwise division propagates NaN from either operand. -/
def safe_divide (num den : Option ℚ) : Option ℚ :=
  let denom := if den = some 0 then none else den
  match num, denom with
  | some a, some b => some (a / b)
  | _, _ => none

/-- The Protein_to_Carbs_ratio column of one row. -/
def ratio1 (r : Row) : Option ℚ := safe_divide r.protein_g r.carbs_g

/-- The Carbs_to_Fat_ratio column of one row. -/
def ratio2 (r : Row) : Option ℚ := safe_divide r.carbs_g r.fat_g

/-- Insert a key into an ascending duplicate-free list, keeping it ascending
and duplicate-free (lt is the strict order as a Bool test). -/
def insertUniq (lt : α → α → Bool) (x : α) : List α → List α
  | [] => [x]
  | y :: ys =>
    if lt x y then x :: y :: ys
    else if lt y x then y :: insertUniq lt x ys
    else y :: ys

/-- The distinct values of a list arranged ascending: the index that pandas
groupby (with its default sort) produces for the group keys. -/
def sortedKeys (lt : α → α → Bool) (xs : List α) : List α :=
  xs.foldr (insertUniq lt) []

/-- Strict lexicographic comparison on strings, as a Bool test. -/
def ltStr (a b : String) : Bool := decide (a < b)

/-- Strict lexicographic comparison on (Diet_type, Cuisine_type) pairs,
matching the ascending multi-key index of groupby on two columns. -/
def ltPairSC (a b : String × String) : Bool :=
  decide (a.1 < b.1 ∨ (a.1 = b.1 ∧ a.2 < b.2))

/-- Strictly-greater on sort keys in the order used by a descending
sort_values with na_position last: any number beats NaN (none). -/
def keyGt : Option ℚ → Option ℚ → Prop
  | some a, some b => b < a
  | some _, none => True
  | none, _ => False

/-- Non-strict version of keyGt: non-increasing in the descending NaN-last
order of sort_values. -/
def protGe : Option ℚ → Option ℚ → Prop
  | some a, some b => b ≤ a
  | some _, none => True
  | none, some _ => False
  | none, none => True

/-- Insert x into an le-sorted list, after every element that compares
le to x: the insertion step of a stable insertion sort. -/
def insertLe (le : α → α → Bool) (x : α) : List α → List α
  | [] => [x]
  | y :: ys => if le y x then y :: insertLe le x ys else x :: y :: ys

/-- Stable sort, processing the input left to right so that ties keep their
original relative order (a later element is inserted after an equal earlier
one). -/
def isortAux (le : α → α → Bool) : List α → List α → List α
  | acc, [] => acc
  | acc, x :: xs => isortAux le (insertLe le x acc) xs

/-- Stable sort by the Bool relation le. -/
def isort (le : α → α → Bool) (xs : List α) : List α := isortAux le [] xs

/-- DataFrame.sort_values(by=key, ascending=False): null-keyed rows go last
in original order, the rest sorted descending by the key.  The model sorts
stably, while pandas' default single-column kind (quicksort) guarantees no
order of equal keys, so only tie-insensitive consequences of this
definition are asserted of the program. -/
def sortDescBy (key : α → Option ℚ) (xs : List α) : List α :=
  isort (fun a b => decide (((key b).getD 0) ≤ ((key a).getD 0)))
      (xs.filter fun x => (key x).isSome)
    ++ xs.filter fun x => !((key x).isSome)

structure AvgRow where
  diet_type : String
  protein_g : Option ℚ
  carbs_g : Option ℚ
  fat_g : Option ℚ
deriving DecidableEq

/-- The rows of one Diet_type group. -/
def groupRows (d : String) (rows : List Row) : List Row :=
  rows.filter fun r => decide (r.diet_type = d)

/-- Step 6 of main: per-diet means of the three numeric columns, sorted
descending by the protein mean. -/
def avg_macros (rows : List Row) : List AvgRow :=
  sortDescBy (fun e => e.protein_g)
    ((sortedKeys ltStr (rows.map fun r => r.diet_type)).map fun d =>
      ⟨d, colMean (fun r => r.protein_g) (groupRows d rows),
          colMean (fun r => r.carbs_g) (groupRows d rows),
          colMean (fun r => r.fat_g) (groupRows d rows)⟩)

/-- The dataset rows tagged with their load order (the RangeIndex pandas
assigns at read_csv), sorted descending by the protein column. -/
def sortedByProteinDesc (rows : List Row) : List (ℕ × Row) :=
  sortDescBy (fun p => p.2.protein_g) rows.enum

/-- groupby(key).head(n): keep a row exactly when fewer than n rows of its
group have been seen before it, preserving the incoming order. -/
def headPerGroupAux (key : α → String) (n : ℕ) (seen : String → ℕ) :
    List α → List α
  | [] => []
  | x :: xs =>
    let rest := headPerGroupAux key n
      (fun d => if d = key x then seen d + 1 else seen d) xs
    if seen (key x) < n then x :: rest else rest

/-- Step 7 of main: the first 5 rows of each Diet_type in the frame sorted
descending by protein. -/
def top_protein (rows : List Row) : List (ℕ × Row) :=
  headPerGroupAux (fun p => p.2.diet_type) 5 (fun _ => 0)
    (sortedByProteinDesc rows)

/-- Series.idxmax over the protein-mean column of the averages view: the
first row attaining the maximum over the non-NaN values, none when there is
no non-NaN value (pandas raises ValueError in that case). -/
def idxmaxProtein (l : List AvgRow) : Option AvgRow :=
  l.foldl
    (fun best a =>
      match best, a.protein_g with
      | none, some _ => some a
      | some b, some v => if (b.protein_g.getD 0) < v then some a else some b
      | _, none => best)
    none

structure CuisineCount where
  diet_type : String
  cuisine_type : String
  size : ℕ
deriving DecidableEq

/-- Step 9 of main, first half: groupby([Diet_type, Cuisine_type]).size(),
keys ascending lexicographically. -/
def cuisine_counts (rows : List Row) : List CuisineCount :=
  (sortedKeys ltPairSC (rows.map fun r => (r.diet_type, r.cuisine_type))).map
    fun p =>
      ⟨p.1, p.2,
       rows.countP fun r => decide (r.diet_type = p.1 ∧ r.cuisine_type = p.2)⟩

/-- The composite key of sort_values([Diet_type, Count], ascending
[True, False]) as a Bool ordering. -/
def leCC (a b : CuisineCount) : Bool :=
  decide (a.diet_type < b.diet_type ∨
    (a.diet_type = b.diet_type ∧ b.size ≤ a.size))

/-- Step 9, sorted: ascending by Diet_type, descending by count, stably
(pandas uses a stable lexicographic sort for multi-key sort_values). -/
def cuisine_counts_sorted (rows : List Row) : List CuisineCount :=
  isort leCC (cuisine_counts rows)

/-- Step 9, second half: head(1) per Diet_type of the sorted counts. -/
def most_common_cuisines (rows : List Row) : List CuisineCount :=
  headPerGroupAux (fun e => e.diet_type) 1 (fun _ => 0)
    (cuisine_counts_sorted rows)

/-- Number of rows carrying a given (Diet_type, Cuisine_type) pair. -/
def countPair (rows : List Row) (d c : String) : ℕ :=
  rows.countP fun r => decide (r.diet_type = d ∧ r.cuisine_type = c)

inductive Effect where
  | mkdir (path : String)
  | write (path : String)
deriving DecidableEq

inductive PipeError where
  | fileNotFound
  | missingColumns (missing : List String)
  | emptyArgmax
deriving DecidableEq

/-- The observable inputs of main: whether the CSV path exists, the header
columns the file was parsed with, and the parsed rows. -/
structure Input where
  fileExists : Bool
  columns : List String
  rows : List Row
deriving DecidableEq

deriving instance DecidableEq for Except

structure Summary where
  rowCount : ℕ
  highestProteinDiet : String
  highestProteinValue : ℚ
deriving DecidableEq

def CHART_DIR : String := "outputs/charts"
def RESULT_DIR : String := "outputs/results"
def NUM_COLS : List String := ["Protein(g)", "Carbs(g)", "Fat(g)"]
def CAT_COLS : List String := ["Diet_type", "Recipe_name", "Cuisine_type"]

def avgCsvPath : String := RESULT_DIR ++ "/avg_macros_by_diet.csv"
def topCsvPath : String := RESULT_DIR ++ "/top5_protein_recipes_by_diet.csv"
def highestTxtPath : String := RESULT_DIR ++ "/highest_protein_diet.txt"
def cuisineCsvPath : String := RESULT_DIR ++ "/most_common_cuisine_by_diet.csv"
def barPngPath : String := CHART_DIR ++ "/avg_macros_bar.png"
def heatPngPath : String := CHART_DIR ++ "/avg_macros_heatmap.png"
def scatterPngPath : String := CHART_DIR ++ "/top_protein_scatter.png"

/-- required_cols - set(df.columns), returned as sorted(list(missing)). -/
def missingCols (columns : List String) : List String :=
  sortedKeys ltStr ((NUM_COLS ++ CAT_COLS).filter fun c => !(columns.contains c))

/-- The main() flow of data_analysis.py as a trace of filesystem effects and
either a raised error or the final console summary. -/
def run (inp : Input) : List Effect × Except PipeError Summary :=
  let effs0 := [Effect.mkdir CHART_DIR, Effect.mkdir RESULT_DIR]
  if !inp.fileExists then (effs0, Except.error PipeError.fileNotFound)
  else
    let missing := missingCols inp.columns
    if missing.isEmpty = false then
      (effs0, Except.error (PipeError.missingColumns missing))
    else
      let df := imputeRows inp.rows
      let avg := avg_macros df
      let effs1 := effs0 ++ [Effect.write avgCsvPath]
      let _top := top_protein df
      let effs2 := effs1 ++ [Effect.write topCsvPath]
      match idxmaxProtein avg with
      | none => (effs2, Except.error PipeError.emptyArgmax)
      | some best =>
        let effs3 := effs2 ++ [Effect.write highestTxtPath]
        let _mode := most_common_cuisines df
        let effs4 := effs3 ++ [Effect.write cuisineCsvPath]
        let effs5 := effs4 ++ [Effect.write barPngPath,
          Effect.write heatPngPath, Effect.write scatterPngPath]
        (effs5, Except.ok
          ⟨df.length, best.diet_type, best.protein_g.getD 0⟩)

/-- The sample scenario of the specification: three recipes over two diets,
one zero-carb row. -/
def wRows : List Row :=
  [⟨"vegan", "A", "asian", some 10, some 5, some 2⟩,
   ⟨"vegan", "B", "asian", some 30, some 0, some 2⟩,
   ⟨"keto", "C", "american", some 20, some 10, some 0⟩]

/-- Rows with a null protein cell, to exercise mean imputation. -/
def wNull : List Row :=
  [⟨"vegan", "A", "asian", some 10, some 5, some 2⟩,
   ⟨"vegan", "B", "asian", none, some 3, some 2⟩]

/-- A header-only input: the file exists with all required columns and zero
data rows. -/
def hdrOnly : Input :=
  ⟨true, ["Diet_type", "Recipe_name", "Cuisine_type",
          "Protein(g)", "Carbs(g)", "Fat(g)"], []⟩

/-- An input whose header lacks the Fat(g) column. -/
def wMiss : Input :=
  ⟨true, ["Diet_type", "Recipe_name", "Cuisine_type",
          "Protein(g)", "Carbs(g)"], wRows⟩

/-- An input whose source file does not exist. -/
def wNoFile : Input := ⟨false, [], []⟩

/-- A complete well-formed input. -/
def wIn : Input :=
  ⟨true, ["Diet_type", "Recipe_name", "Cuisine_type",
          "Protein(g)", "Carbs(g)", "Fat(g)"], wRows⟩

/-- The order in which the sorted cuisine counts appear: Diet_type
ascending, then count descending, then Cuisine_type ascending (the last by
stability of the sort over the ascending pair index of the groupby). -/
def modeOrder (a b : CuisineCount) : Prop :=
  a.diet_type < b.diet_type
  ∨ (a.diet_type = b.diet_type
      ∧ (b.size < a.size
        ∨ (a.size = b.size ∧ a.cuisine_type < b.cuisine_type)))

/-- The second record of wNull paired with its imputed image. -/
def wPair : Row × Row :=
  (⟨"vegan", "B", "asian", none, some 3, some 2⟩,
   ⟨"vegan", "B", "asian",
    colMean (fun r => r.protein_g) wNull, some 3, some 2⟩)

/-! ### Generic lemmas about the stable insertion sort -/

theorem mem_insertLe (le : α → α → Bool) (x a : α) (l : List α) :
    a ∈ insertLe le x l ↔ a = x ∨ a ∈ l := by
  induction l with
  | nil => simp [insertLe]
  | cons y ys ih =>
    by_cases h : le y x = true
    · rw [insertLe, if_pos h]
      simp only [List.mem_cons, ih]
      tauto
    · rw [insertLe, if_neg h]
      simp only [List.mem_cons]

theorem insertLe_perm (le : α → α → Bool) (x : α) (l : List α) :
    (insertLe le x l).Perm (x :: l) := by
  induction l with
  | nil => simp [insertLe]
  | cons y ys ih =>
    by_cases h : le y x = true
    · simp only [insertLe, h, if_pos]
      exact (ih.cons y).trans (List.Perm.swap x y ys)
    · simp [insertLe, h]

theorem isortAux_perm (le : α → α → Bool) (xs : List α) :
    ∀ acc, (isortAux le acc xs).Perm (acc ++ xs) := by
  induction xs with
  | nil => intro acc; simp [isortAux]
  | cons x xs ih =>
    intro acc
    have h1 := ih (insertLe le x acc)
    have h2 : (insertLe le x acc ++ xs).Perm (acc ++ x :: xs) := by
      refine ((insertLe_perm le x acc).append (List.Perm.refl xs)).trans ?_
      exact List.perm_middle.symm
    exact h1.trans h2

theorem isort_perm (le : α → α → Bool) (xs : List α) :
    (isort le xs).Perm xs := isortAux_perm le xs []

theorem insertLe_pairwise_stable (le : α → α → Bool)
    (htrans : ∀ a b c, le a b = true → le b c = true → le a c = true)
    (htot : ∀ a b, le a b = true ∨ le b a = true)
    {s : α → α → Prop} {x : α} {acc : List α}
    (hacc : acc.Pairwise fun a b => le a b = true ∧ (le b a = true → s a b))
    (hx : ∀ y ∈ acc, s y x) :
    (insertLe le x acc).Pairwise
      fun a b => le a b = true ∧ (le b a = true → s a b) := by
  induction acc with
  | nil => simp [insertLe]
  | cons y ys ih =>
    rw [List.pairwise_cons] at hacc
    obtain ⟨hy, hys⟩ := hacc
    by_cases h : le y x = true
    · rw [insertLe, if_pos h]
      rw [List.pairwise_cons]
      constructor
      · intro b hb
        rcases (mem_insertLe le x b ys).mp hb with hb | hb
        · subst hb
          exact ⟨h, fun _ => hx y (by simp)⟩
        · exact hy b hb
      · exact ih hys fun z hz => hx z (by simp [hz])
    · rw [insertLe, if_neg h]
      rw [List.pairwise_cons]
      constructor
      · intro b hb
        have hxy : le x y = true := by
          rcases htot x y with h1 | h1
          · exact h1
          · exact absurd h1 h
        rcases List.mem_cons.mp hb with hb | hb
        · subst hb
          refine ⟨hxy, fun hyx => absurd hyx h⟩
        · have hyb := (hy b hb).1
          refine ⟨htrans x y b hxy hyb, fun hbx => ?_⟩
          exact absurd (htrans y b x hyb hbx) h
      · exact List.Pairwise.cons hy hys

theorem isortAux_pairwise_stable (le : α → α → Bool)
    (htrans : ∀ a b c, le a b = true → le b c = true → le a c = true)
    (htot : ∀ a b, le a b = true ∨ le b a = true)
    {s : α → α → Prop} (xs : List α) :
    ∀ acc, acc.Pairwise (fun a b => le a b = true ∧ (le b a = true → s a b)) →
      xs.Pairwise s → (∀ y ∈ acc, ∀ x ∈ xs, s y x) →
      (isortAux le acc xs).Pairwise
        fun a b => le a b = true ∧ (le b a = true → s a b) := by
  induction xs with
  | nil => intro acc hacc _ _; exact hacc
  | cons x xs ih =>
    intro acc hacc hxs hcross
    rw [List.pairwise_cons] at hxs
    obtain ⟨hxxs, hxs⟩ := hxs
    refine ih (insertLe le x acc) ?_ hxs ?_
    · exact insertLe_pairwise_stable le htrans htot hacc
        fun y hy => hcross y hy x (by simp)
    · intro y hy z hz
      rcases (mem_insertLe le x y acc).mp hy with hy | hy
      · subst hy; exact hxxs z hz
      · exact hcross y hy z (by simp [hz])

/-- A stable sort of a list whose original order is described by s produces
a list sorted by le in which ties under le retain the s order. -/
theorem isort_pairwise_stable (le : α → α → Bool)
    (htrans : ∀ a b c, le a b = true → le b c = true → le a c = true)
    (htot : ∀ a b, le a b = true ∨ le b a = true)
    {s : α → α → Prop} {xs : List α} (hxs : xs.Pairwise s) :
    (isort le xs).Pairwise
      fun a b => le a b = true ∧ (le b a = true → s a b) :=
  isortAux_pairwise_stable le htrans htot xs [] (by simp) hxs (by simp)

/-! ### Lemmas about the ascending duplicate-free key index -/

theorem mem_insertUniq (lt : α → α → Bool)
    (htri : ∀ a b, lt a b = false → lt b a = false → a = b)
    (x a : α) (l : List α) :
    a ∈ insertUniq lt x l ↔ a = x ∨ a ∈ l := by
  induction l with
  | nil => simp [insertUniq]
  | cons y ys ih =>
    by_cases h1 : lt x y = true
    · rw [insertUniq, if_pos h1]
      simp only [List.mem_cons]
    · rw [insertUniq, if_neg h1]
      by_cases h2 : lt y x = true
      · rw [if_pos h2]
        simp only [List.mem_cons, ih]
        tauto
      · rw [if_neg h2]
        have hxy : x = y :=
          htri x y (Bool.not_eq_true _ ▸ h1) (Bool.not_eq_true _ ▸ h2)
        subst hxy
        simp only [List.mem_cons]
        tauto

theorem pairwise_insertUniq (lt : α → α → Bool)
    (htrans : ∀ a b c, lt a b = true → lt b c = true → lt a c = true)
    (htri : ∀ a b, lt a b = false → lt b a = false → a = b)
    (x : α) {l : List α} (hl : l.Pairwise fun a b => lt a b = true) :
    (insertUniq lt x l).Pairwise fun a b => lt a b = true := by
  induction l with
  | nil => simp [insertUniq]
  | cons y ys ih =>
    rw [List.pairwise_cons] at hl
    obtain ⟨hy, hys⟩ := hl
    by_cases h1 : lt x y = true
    · rw [insertUniq, if_pos h1]
      rw [List.pairwise_cons]
      refine ⟨?_, List.Pairwise.cons hy hys⟩
      intro b hb
      rcases List.mem_cons.mp hb with hb | hb
      · subst hb; exact h1
      · exact htrans x y b h1 (hy b hb)
    · rw [insertUniq, if_neg h1]
      by_cases h2 : lt y x = true
      · rw [if_pos h2]
        rw [List.pairwise_cons]
        refine ⟨?_, ih hys⟩
        intro b hb
        rcases (mem_insertUniq lt htri x b ys).mp hb with hb | hb
        · subst hb; exact h2
        · exact hy b hb
      · rw [if_neg h2]
        exact List.Pairwise.cons hy hys

theorem mem_sortedKeys (lt : α → α → Bool)
    (htri : ∀ a b, lt a b = false → lt b a = false → a = b)
    (a : α) (xs : List α) :
    a ∈ sortedKeys lt xs ↔ a ∈ xs := by
  induction xs with
  | nil => simp [sortedKeys]
  | cons x xs ih =>
    show a ∈ insertUniq lt x (sortedKeys lt xs) ↔ _
    rw [mem_insertUniq lt htri, ih]
    simp

theorem pairwise_sortedKeys (lt : α → α → Bool)
    (htrans : ∀ a b c, lt a b = true → lt b c = true → lt a c = true)
    (htri : ∀ a b, lt a b = false → lt b a = false → a = b)
    (xs : List α) :
    (sortedKeys lt xs).Pairwise fun a b => lt a b = true := by
  induction xs with
  | nil => simp [sortedKeys]
  | cons x xs ih =>
    exact pairwise_insertUniq lt htrans htri x ih

theorem ltStr_trans : ∀ a b c, ltStr a b = true → ltStr b c = true →
    ltStr a c = true := by
  intro a b c h1 h2
  simp only [ltStr, decide_eq_true_iff] at h1 h2 ⊢
  exact lt_trans h1 h2

theorem ltStr_tri : ∀ a b : String, ltStr a b = false → ltStr b a = false →
    a = b := by
  intro a b h1 h2
  simp only [ltStr, decide_eq_false_iff_not] at h1 h2
  exact le_antisymm (not_lt.mp h2) (not_lt.mp h1)

theorem ltPairSC_trans : ∀ a b c, ltPairSC a b = true → ltPairSC b c = true →
    ltPairSC a c = true := by
  intro a b c h1 h2
  simp only [ltPairSC, decide_eq_true_iff] at h1 h2 ⊢
  rcases h1 with h1 | ⟨h1e, h1s⟩
  · rcases h2 with h2 | ⟨h2e, _⟩
    · exact Or.inl (lt_trans h1 h2)
    · exact Or.inl (h2e ▸ h1)
  · rcases h2 with h2 | ⟨h2e, h2s⟩
    · exact Or.inl (h1e ▸ h2)
    · exact Or.inr ⟨h1e.trans h2e, lt_trans h1s h2s⟩

theorem ltPairSC_tri : ∀ a b : String × String, ltPairSC a b = false →
    ltPairSC b a = false → a = b := by
  intro a b h1 h2
  simp only [ltPairSC, decide_eq_false_iff_not, not_or, not_and] at h1 h2
  obtain ⟨h1f, h1s⟩ := h1
  obtain ⟨h2f, h2s⟩ := h2
  have hf : a.1 = b.1 := le_antisymm (not_lt.mp h2f) (not_lt.mp h1f)
  have hs : a.2 = b.2 :=
    le_antisymm (not_lt.mp (h2s hf.symm)) (not_lt.mp (h1s hf))
  exact Prod.ext hf hs

/-! ### Lemmas about the descending NaN-last sort -/

theorem sortDescBy_perm (key : α → Option ℚ) (xs : List α) :
    (sortDescBy key xs).Perm xs := by
  rw [sortDescBy]
  refine ((isort_perm _ _).append (List.Perm.refl _)).trans ?_
  exact List.filter_append_perm _ xs

theorem key_eq_none_of_not_isSome {key : α → Option ℚ} {a : α}
    (h : (!(key a).isSome) = true) : key a = none := by
  cases hk : key a with
  | none => rfl
  | some v => rw [hk] at h; simp at h

/-- The descending sort orders the rows by keyGt, and rows with equal keys
(and thus also the NaN rows among themselves) retain the order s they had in
the input list. -/
theorem sortDescBy_pairwise (key : α → Option ℚ) {s : α → α → Prop}
    {xs : List α} (hxs : xs.Pairwise s) :
    (sortDescBy key xs).Pairwise
      fun a b => keyGt (key a) (key b) ∨ (key a = key b ∧ s a b) := by
  rw [sortDescBy, List.pairwise_append]
  set le : α → α → Bool :=
    fun a b => decide (((key b).getD 0) ≤ ((key a).getD 0)) with hle
  have htrans : ∀ a b c, le a b = true → le b c = true → le a c = true := by
    intro a b c h1 h2
    simp only [hle, decide_eq_true_iff] at h1 h2 ⊢
    exact le_trans h2 h1
  have htot : ∀ a b, le a b = true ∨ le b a = true := by
    intro a b
    simp only [hle, decide_eq_true_iff]
    exact le_total _ _
  refine ⟨?_, ?_, ?_⟩
  · have hp := isort_pairwise_stable le htrans htot
      (hxs.filter fun x => (key x).isSome)
    refine hp.imp_of_mem ?_
    intro a b ha hb hab
    have ha2 := ((isort_perm le _).mem_iff.mp ha)
    have hb2 := ((isort_perm le _).mem_iff.mp hb)
    obtain ⟨va, hva⟩ :=
      Option.isSome_iff_exists.mp (List.mem_filter.mp ha2).2
    obtain ⟨vb, hvb⟩ :=
      Option.isSome_iff_exists.mp (List.mem_filter.mp hb2).2
    obtain ⟨h1, h2⟩ := hab
    simp only [hle, decide_eq_true_iff, hva, hvb, Option.getD_some] at h1 h2
    by_cases h3 : va ≤ vb
    · exact Or.inr ⟨by rw [hva, hvb, le_antisymm h3 h1], h2 h3⟩
    · refine Or.inl ?_
      rw [hva, hvb]
      exact lt_of_not_le h3
  · refine (hxs.filter _).imp_of_mem ?_
    intro a b ha hb hab
    have ha2 := key_eq_none_of_not_isSome (List.mem_filter.mp ha).2
    have hb2 := key_eq_none_of_not_isSome (List.mem_filter.mp hb).2
    exact Or.inr ⟨ha2.trans hb2.symm, hab⟩
  · intro a ha b hb
    have ha2 := ((isort_perm le _).mem_iff.mp ha)
    obtain ⟨va, hva⟩ :=
      Option.isSome_iff_exists.mp (List.mem_filter.mp ha2).2
    have hb2 := key_eq_none_of_not_isSome (List.mem_filter.mp hb).2
    refine Or.inl ?_
    rw [hva, hb2]
    exact trivial

/-! ### Lemmas about groupby head -/

theorem headPerGroupAux_sublist (key : α → String) (n : ℕ) :
    ∀ (xs : List α) (seen : String → ℕ),
      (headPerGroupAux key n seen xs).Sublist xs := by
  intro xs
  induction xs with
  | nil => intro seen; simp [headPerGroupAux]
  | cons x xs ih =>
    intro seen
    rw [headPerGroupAux]
    by_cases h : seen (key x) < n
    · rw [if_pos h]
      exact (ih _).cons₂ x
    · rw [if_neg h]
      exact (ih _).cons x

theorem headPerGroupAux_countP (key : α → String) (n : ℕ) (d : String) :
    ∀ (xs : List α) (seen : String → ℕ),
      (headPerGroupAux key n seen xs).countP (fun x => decide (key x = d))
        ≤ n - seen d := by
  intro xs
  induction xs with
  | nil => intro seen; simp [headPerGroupAux]
  | cons x xs ih =>
    intro seen
    rw [headPerGroupAux]
    have ihx := ih fun e => if e = key x then seen e + 1 else seen e
    by_cases hd : key x = d
    · subst hd
      have hsx : (if key x = key x then seen (key x) + 1 else seen (key x))
          = seen (key x) + 1 := by simp
      rw [hsx] at ihx
      by_cases h : seen (key x) < n
      · rw [if_pos h]
        rw [List.countP_cons]
        simp only [decide_eq_true_eq, eq_self_iff_true, if_true]
        omega
      · rw [if_neg h]
        omega
    · have hseen : (if d = key x then seen d + 1 else seen d) = seen d := by
        rw [if_neg (fun he => hd he.symm)]
      rw [hseen] at ihx
      by_cases h : seen (key x) < n
      · rw [if_pos h]
        rw [List.countP_cons]
        simp only [decide_eq_true_iff, if_neg hd]
        omega
      · rw [if_neg h]
        exact ihx

/-- head(1) keeps, for each key value present, the first element carrying
that key; the kept element is related by R (or equal) to every element of
that key in the incoming list. -/
theorem headPerGroupAux_first (key : α → String) {R : α → α → Prop} :
    ∀ (L : List α), L.Pairwise R → ∀ (seen : String → ℕ) (d : String),
      seen d = 0 → (∃ x ∈ L, key x = d) →
      ∃ y ∈ headPerGroupAux key 1 seen L, key y = d ∧
        ∀ x ∈ L, key x = d → y = x ∨ R y x := by
  intro L
  induction L with
  | nil => intro _ seen d _ hex; simp at hex
  | cons z L ih =>
    intro hp seen d hseen hex
    rw [List.pairwise_cons] at hp
    obtain ⟨hz, hp⟩ := hp
    rw [headPerGroupAux]
    by_cases hzd : key z = d
    · have hlt : seen (key z) < 1 := by rw [hzd, hseen]; omega
      rw [if_pos hlt]
      refine ⟨z, by simp, hzd, ?_⟩
      intro x hx hxd
      rcases List.mem_cons.mp hx with hx | hx
      · exact Or.inl hx.symm
      · exact Or.inr (hz x hx)
    · have hex2 : ∃ x ∈ L, key x = d := by
        rcases hex with ⟨x, hx, hxd⟩
        rcases List.mem_cons.mp hx with hx | hx
        · exact absurd (hx ▸ hxd) hzd
        · exact ⟨x, hx, hxd⟩
      have hseen2 : (if d = key z then seen d + 1 else seen d) = 0 := by
        rw [if_neg (fun he => hzd he.symm), hseen]
      obtain ⟨y, hy, hyd, hall⟩ :=
        ih hp (fun e => if e = key z then seen e + 1 else seen e) d hseen2 hex2
      refine ⟨y, ?_, hyd, ?_⟩
      · by_cases h : seen (key z) < 1
        · rw [if_pos h]; exact List.mem_cons_of_mem z hy
        · rw [if_neg h]; exact hy
      · intro x hx hxd
        rcases List.mem_cons.mp hx with hx | hx
        · exact absurd (hx ▸ hxd) hzd
        · exact hall x hx hxd

/-! ### Lemmas about load order and column means -/

theorem enum_pairwise_fst (l : List α) :
    l.enum.Pairwise fun p q => p.1 < q.1 := by
  rw [List.pairwise_iff_getElem]
  intro i j hi hj hij
  rw [List.getElem_enum, List.getElem_enum]
  exact hij

theorem colMean_eq_none_iff (get : Row → Option ℚ) (rows : List Row) :
    colMean get rows = none ↔ ∀ r ∈ rows, get r = none := by
  have hunf : colMean get rows =
      if (rows.filterMap get).isEmpty then none
      else some ((rows.filterMap get).sum /
        ((rows.filterMap get).length : ℚ)) := rfl
  rw [hunf]
  by_cases h : rows.filterMap get = []
  · rw [if_pos (by simp [h])]
    simp only [true_iff]
    intro r hr
    cases hg : get r with
    | none => rfl
    | some v =>
      exfalso
      have hv : v ∈ rows.filterMap get := List.mem_filterMap.mpr ⟨r, hr, hg⟩
      rw [h] at hv
      exact absurd hv (List.not_mem_nil v)
  · rw [if_neg (by simp [h])]
    constructor
    · intro hc
      exact absurd hc (Option.some_ne_none _)
    · intro hall
      exact absurd (List.filterMap_eq_nil_iff.mpr hall) h

/-! ### Claim theorems -/

/-- A single cell after imputation: null cells become the column mean
(computed over the original rows), non-null cells survive, and a column
with at least one non-null value yields a non-null imputed cell. -/
theorem impute_cell_spec (get : Row → Option ℚ) (rows : List Row) (r : Row)
    (hr : r ∈ rows) :
    (get r = none → fillCell (colMean get rows) (get r) = colMean get rows)
    ∧ ((∃ t ∈ rows, (get t).isSome) →
        (fillCell (colMean get rows) (get r)).isSome)
    ∧ ((∀ t ∈ rows, get t = none) →
        fillCell (colMean get rows) (get r) = none) := by
  refine ⟨?_, ?_, ?_⟩
  · intro hn
    rw [hn]
    rfl
  · intro hex
    have hm : colMean get rows ≠ none := by
      rw [Ne, colMean_eq_none_iff]
      intro hall
      obtain ⟨t, ht, hts⟩ := hex
      rw [hall t ht] at hts
      exact absurd hts (by simp)
    cases hc : get r with
    | none =>
      exact Option.isSome_iff_ne_none.mpr hm
    | some v =>
      rfl
  · intro hall
    rw [hall r hr]
    exact (colMean_eq_none_iff get rows).mpr hall

/-- C1: after the coerce and impute steps, each metric cell of every record
is non-null provided its column has at least one non-null value; every null
cell has been replaced by its column's mean over the non-null values,
computed once over the whole dataset before any replacement; in a column
that is entirely null the mean is null and the nulls remain null. -/
theorem imputed_metrics_spec (rows : List Row) :
    ∀ p ∈ rows.zip (imputeRows rows),
      (p.2.protein_g
          = fillCell (colMean (fun r => r.protein_g) rows) p.1.protein_g
        ∧ (p.1.protein_g = none →
            p.2.protein_g = colMean (fun r => r.protein_g) rows)
        ∧ ((∃ r ∈ rows, (r.protein_g).isSome) → (p.2.protein_g).isSome)
        ∧ ((∀ r ∈ rows, r.protein_g = none) → p.2.protein_g = none))
      ∧ (p.2.carbs_g
          = fillCell (colMean (fun r => r.carbs_g) rows) p.1.carbs_g
        ∧ (p.1.carbs_g = none →
            p.2.carbs_g = colMean (fun r => r.carbs_g) rows)
        ∧ ((∃ r ∈ rows, (r.carbs_g).isSome) → (p.2.carbs_g).isSome)
        ∧ ((∀ r ∈ rows, r.carbs_g = none) → p.2.carbs_g = none))
      ∧ (p.2.fat_g
          = fillCell (colMean (fun r => r.fat_g) rows) p.1.fat_g
        ∧ (p.1.fat_g = none →
            p.2.fat_g = colMean (fun r => r.fat_g) rows)
        ∧ ((∃ r ∈ rows, (r.fat_g).isSome) → (p.2.fat_g).isSome)
        ∧ ((∀ r ∈ rows, r.fat_g = none) → p.2.fat_g = none)) := by
  have hz : rows.zip (imputeRows rows)
      = rows.map fun r =>
          (r, { r with
                protein_g :=
                  fillCell (colMean (fun t => t.protein_g) rows) r.protein_g
                carbs_g :=
                  fillCell (colMean (fun t => t.carbs_g) rows) r.carbs_g
                fat_g :=
                  fillCell (colMean (fun t => t.fat_g) rows) r.fat_g }) := by
    have h1 := List.zip_map' id
      (fun r : Row =>
        { r with
          protein_g :=
            fillCell (colMean (fun t => t.protein_g) rows) r.protein_g
          carbs_g :=
            fillCell (colMean (fun t => t.carbs_g) rows) r.carbs_g
          fat_g :=
            fillCell (colMean (fun t => t.fat_g) rows) r.fat_g }) rows
    rw [List.map_id] at h1
    exact h1
  intro p hp
  rw [hz] at hp
  obtain ⟨r, hr, hpr⟩ := List.mem_map.mp hp
  subst hpr
  obtain ⟨hp1, hp2, hp3⟩ :=
    impute_cell_spec (fun t => t.protein_g) rows r hr
  obtain ⟨hc1, hc2, hc3⟩ :=
    impute_cell_spec (fun t => t.carbs_g) rows r hr
  obtain ⟨hf1, hf2, hf3⟩ :=
    impute_cell_spec (fun t => t.fat_g) rows r hr
  exact ⟨⟨rfl, hp1, hp2, hp3⟩, ⟨rfl, hc1, hc2, hc3⟩, ⟨rfl, hf1, hf2, hf3⟩⟩

theorem imputed_metrics_spec_witness :
    (wPair.2.protein_g).isSome = true
      ∧ wPair.2.protein_g = colMean (fun r => r.protein_g) wNull := by
  have h := imputed_metrics_spec wNull wPair
    (List.mem_cons_of_mem _ (List.mem_cons_self _ _))
  exact ⟨h.1.2.2.1 ⟨⟨"vegan", "A", "asian", some 10, some 5, some 2⟩,
    List.mem_cons_self _ _, rfl⟩, h.1.2.1 rfl⟩

/-- safe_divide returns null exactly when the numerator is null or the
denominator is null or zero; any numeric result is the exact quotient of a
numeric numerator by a non-zero numeric denominator, so the division can
neither raise nor produce an infinity. -/
theorem safe_divide_spec (num den : Option ℚ) :
    (safe_divide num den = none ↔
      num = none ∨ den = none ∨ den = some 0)
    ∧ ∀ q : ℚ, safe_divide num den = some q →
        ∃ a b, num = some a ∧ den = some b ∧ b ≠ 0 ∧ q = a / b := by
  cases num with
  | none =>
    cases den with
    | none => simp [safe_divide]
    | some d =>
      by_cases hd : d = 0 <;> simp [safe_divide, hd]
  | some a =>
    cases den with
    | none => simp [safe_divide]
    | some d =>
      by_cases hd : d = 0
      · subst hd
        simp [safe_divide]
      · constructor
        · simp [safe_divide, hd]
        · intro q hq
          have hsd : safe_divide (some a) (some d) = some (a / d) := by
            simp [safe_divide, hd]
          rw [hsd] at hq
          exact ⟨a, d, rfl, rfl, hd, (Option.some_injective _ hq).symm⟩

/-- C2: for every record the two derived ratios are null whenever the
denominator is zero or null or the numerator is null; a numeric ratio is
always a finite quotient with non-zero denominator, so the computation
never raises and never produces an infinity. -/
theorem ratios_null_safe (r : Row) :
    (ratio1 r = none ↔
      r.protein_g = none ∨ r.carbs_g = none ∨ r.carbs_g = some 0)
    ∧ (ratio2 r = none ↔
      r.carbs_g = none ∨ r.fat_g = none ∨ r.fat_g = some 0)
    ∧ (∀ q : ℚ, ratio1 r = some q →
        ∃ a b, r.protein_g = some a ∧ r.carbs_g = some b ∧ b ≠ 0 ∧ q = a / b)
    ∧ (∀ q : ℚ, ratio2 r = some q →
        ∃ a b, r.carbs_g = some a ∧ r.fat_g = some b ∧ b ≠ 0 ∧ q = a / b) :=
  ⟨(safe_divide_spec r.protein_g r.carbs_g).1,
   (safe_divide_spec r.carbs_g r.fat_g).1,
   (safe_divide_spec r.protein_g r.carbs_g).2,
   (safe_divide_spec r.carbs_g r.fat_g).2⟩

theorem ratios_null_safe_witness :
    ratio1 ⟨"vegan", "B", "asian", some 30, some 0, some 2⟩ = none :=
  (ratios_null_safe ⟨"vegan", "B", "asian", some 30, some 0, some 2⟩).1.mpr
    (Or.inr (Or.inr rfl))

theorem keyGt_protGe {a b : Option ℚ} (h : keyGt a b) : protGe a b := by
  cases a with
  | none => cases b <;> exact h.elim
  | some va =>
    cases b with
    | none => exact trivial
    | some vb => exact le_of_lt h

theorem protGe_of_eq {a b : Option ℚ} (h : a = b) : protGe a b := by
  subst h
  cases a with
  | none => exact trivial
  | some v => exact le_refl v

/-- C4: the top-5 view holds at most 5 rows per Diet_type, and along the
view rows of one Diet_type have non-increasing protein, in the NaN-last
descending order of the sort. -/
theorem top_protein_spec (rows : List Row) :
    (∀ d, (top_protein rows).countP
        (fun p => decide (p.2.diet_type = d)) ≤ 5)
    ∧ (top_protein rows).Pairwise fun a b =>
        a.2.diet_type = b.2.diet_type →
          protGe a.2.protein_g b.2.protein_g := by
  constructor
  · intro d
    have h := headPerGroupAux_countP (fun p : ℕ × Row => p.2.diet_type) 5 d
      (sortedByProteinDesc rows) fun _ => 0
    simpa using h
  · have hpw := sortDescBy_pairwise (fun p : ℕ × Row => p.2.protein_g)
      (enum_pairwise_fst rows)
    have hsub := headPerGroupAux_sublist (fun p : ℕ × Row => p.2.diet_type) 5
      (sortedByProteinDesc rows) fun _ => 0
    refine (List.Pairwise.sublist hsub hpw).imp ?_
    intro a b h _
    rcases h with h | ⟨h, _⟩
    · exact keyGt_protGe h
    · exact protGe_of_eq h

theorem top_protein_spec_witness :
    (top_protein wRows).countP
      (fun p => decide (p.2.diet_type = "vegan")) ≤ 5 :=
  (top_protein_spec wRows).1 "vegan"

theorem leCC_trans : ∀ a b c, leCC a b = true → leCC b c = true →
    leCC a c = true := by
  intro a b c h1 h2
  simp only [leCC, decide_eq_true_iff] at h1 h2 ⊢
  rcases h1 with h1 | ⟨h1e, h1s⟩
  · rcases h2 with h2 | ⟨h2e, _⟩
    · exact Or.inl (lt_trans h1 h2)
    · exact Or.inl (h2e ▸ h1)
  · rcases h2 with h2 | ⟨h2e, h2s⟩
    · exact Or.inl (h1e ▸ h2)
    · exact Or.inr ⟨h1e.trans h2e, le_trans h2s h1s⟩

theorem leCC_total : ∀ a b, leCC a b = true ∨ leCC b a = true := by
  intro a b
  simp only [leCC, decide_eq_true_iff]
  rcases lt_trichotomy a.diet_type b.diet_type with h | h | h
  · exact Or.inl (Or.inl h)
  · rcases le_total b.size a.size with hs | hs
    · exact Or.inl (Or.inr ⟨h, hs⟩)
    · exact Or.inr (Or.inr ⟨h.symm, hs⟩)
  · exact Or.inr (Or.inl h)

theorem cuisine_counts_pairwise (rows : List Row) :
    (cuisine_counts rows).Pairwise fun a b =>
      ltPairSC (a.diet_type, a.cuisine_type)
        (b.diet_type, b.cuisine_type) = true := by
  rw [cuisine_counts, List.pairwise_map]
  exact (pairwise_sortedKeys ltPairSC ltPairSC_trans ltPairSC_tri _).imp
    fun h => h

theorem cuisine_counts_sorted_pairwise (rows : List Row) :
    (cuisine_counts_sorted rows).Pairwise modeOrder := by
  have h0 := isort_pairwise_stable leCC leCC_trans leCC_total
    (cuisine_counts_pairwise rows)
  refine h0.imp ?_
  intro a b h
  obtain ⟨h1, h2⟩ := h
  simp only [leCC, decide_eq_true_iff] at h1
  rcases h1 with h1 | ⟨he, hs⟩
  · exact Or.inl h1
  · by_cases hlt : b.size < a.size
    · exact Or.inr ⟨he, Or.inl hlt⟩
    · have hsz : a.size = b.size := le_antisymm (not_lt.mp hlt) hs
      have hba : leCC b a = true := by
        simp only [leCC, decide_eq_true_iff]
        exact Or.inr ⟨he.symm, hsz.le⟩
      have hpair := h2 hba
      simp only [ltPairSC, decide_eq_true_iff] at hpair
      rcases hpair with hp | ⟨_, hp⟩
      · rw [he] at hp
        exact absurd hp (lt_irrefl _)
      · exact Or.inr ⟨he, Or.inr ⟨hsz, hp⟩⟩

/-- C6: for every Diet_type present in the dataset, the mode view contains
an entry whose Cuisine_type attains the maximal pair count for that
Diet_type, carrying that count, and on count ties the entry holds the
lexicographically smallest such Cuisine_type. -/
theorem most_common_cuisines_spec (rows : List Row) :
    ∀ d ∈ rows.map Row.diet_type,
      ∃ e ∈ most_common_cuisines rows,
        e.diet_type = d
        ∧ (d, e.cuisine_type)
            ∈ (rows.map fun t => (t.diet_type, t.cuisine_type))
        ∧ e.size = countPair rows d e.cuisine_type
        ∧ (∀ c, countPair rows d c ≤ e.size)
        ∧ (∀ c, countPair rows d c = e.size → e.cuisine_type ≤ c) := by
  intro d hd
  obtain ⟨r, hr, hrd⟩ := List.mem_map.mp hd
  have hmemCC : ∀ p : String × String,
      p ∈ (rows.map fun t => (t.diet_type, t.cuisine_type)) →
      (⟨p.1, p.2, countPair rows p.1 p.2⟩ : CuisineCount)
        ∈ cuisine_counts_sorted rows := by
    intro p hp
    exact (isort_perm leCC (cuisine_counts rows)).mem_iff.mpr
      (List.mem_map.mpr
        ⟨p, (mem_sortedKeys ltPairSC ltPairSC_tri p _).mpr hp, rfl⟩)
  have hpair0 : (d, r.cuisine_type)
      ∈ (rows.map fun t => (t.diet_type, t.cuisine_type)) :=
    List.mem_map.mpr ⟨r, hr, by rw [hrd]⟩
  have hex : ∃ x ∈ cuisine_counts_sorted rows, x.diet_type = d :=
    ⟨_, hmemCC _ hpair0, rfl⟩
  obtain ⟨y, hy, hyd, hall⟩ := headPerGroupAux_first
    (fun e : CuisineCount => e.diet_type) (cuisine_counts_sorted rows)
    (cuisine_counts_sorted_pairwise rows) (fun _ => 0) d rfl hex
  have hyL : y ∈ cuisine_counts_sorted rows :=
    (headPerGroupAux_sublist (fun e : CuisineCount => e.diet_type) 1
      (cuisine_counts_sorted rows) fun _ => 0).subset hy
  obtain ⟨p, hp, hpe⟩ :=
    List.mem_map.mp ((isort_perm leCC (cuisine_counts rows)).mem_iff.mp hyL)
  have hyeq : y = ⟨p.1, p.2, countPair rows p.1 p.2⟩ := hpe.symm
  subst hyeq
  have hp1 : p.1 = d := hyd
  have hpm : (d, p.2) ∈ (rows.map fun t => (t.diet_type, t.cuisine_type)) := by
    have hmp : (p.1, p.2)
        ∈ (rows.map fun t => (t.diet_type, t.cuisine_type)) :=
      (mem_sortedKeys ltPairSC ltPairSC_tri p _).mp hp
    rw [hp1] at hmp
    exact hmp
  have hsize : countPair rows p.1 p.2 = countPair rows d p.2 := by
    rw [hp1]
  have hentry : ∀ c, countPair rows d c ≠ 0 →
      (⟨d, c, countPair rows d c⟩ : CuisineCount)
        ∈ cuisine_counts_sorted rows := by
    intro c hc
    have hcpos : 0 < countPair rows d c := Nat.pos_of_ne_zero hc
    obtain ⟨t, ht, hpt⟩ := List.countP_pos_iff.mp hcpos
    have hptt : t.diet_type = d ∧ t.cuisine_type = c := of_decide_eq_true hpt
    exact hmemCC (d, c)
      (List.mem_map.mpr ⟨t, ht, by rw [hptt.1, hptt.2]⟩)
  have hbound : ∀ c, countPair rows d c ≤ countPair rows d p.2 := by
    intro c
    by_cases hc : countPair rows d c = 0
    · rw [hc]
      exact Nat.zero_le _
    · rcases hall _ (hentry c hc) rfl with he | hR
      · have hse := congrArg CuisineCount.size he
        rw [← hsize]
        exact le_of_eq hse.symm
      · rcases hR with hR | ⟨_, hR⟩
        · exact absurd (hp1 ▸ hR) (lt_irrefl _)
        · rcases hR with hR | ⟨hR, _⟩
          · rw [← hsize]
            exact le_of_lt hR
          · rw [← hsize]
            exact le_of_eq hR.symm
  have htie : ∀ c, countPair rows d c = countPair rows d p.2 →
      p.2 ≤ c := by
    intro c hc
    have hppos : 0 < countPair rows d p.2 := by
      obtain ⟨t, ht, hte⟩ := List.mem_map.mp hpm
      refine List.countP_pos_iff.mpr ⟨t, ht, ?_⟩
      have ht1 : t.diet_type = d := congrArg Prod.fst hte
      have ht2 : t.cuisine_type = p.2 := congrArg Prod.snd hte
      exact decide_eq_true ⟨ht1, ht2⟩
    have hcne : countPair rows d c ≠ 0 := by
      rw [hc]
      omega
    rcases hall _ (hentry c hcne) rfl with he | hR
    · have := congrArg CuisineCount.cuisine_type he
      exact le_of_eq this
    · rcases hR with hR | ⟨_, hR⟩
      · exact absurd (hp1 ▸ hR) (lt_irrefl _)
      · rcases hR with hR | ⟨_, hR⟩
        · rw [hsize, hc] at hR
          exact absurd hR (lt_irrefl _)
        · exact le_of_lt hR
  refine ⟨_, hy, hyd, hpm, ?_, ?_, ?_⟩
  · exact hsize
  · intro c
    exact le_trans (hbound c) (le_of_eq hsize.symm)
  · intro c hc
    exact htie c
      ((show countPair rows d c = countPair rows p.1 p.2 from hc).trans hsize)

theorem most_common_cuisines_spec_witness :
    0 < (most_common_cuisines wRows).length := by
  obtain ⟨e, he, _⟩ := most_common_cuisines_spec wRows "vegan" (by decide)
  exact List.length_pos.mpr (List.ne_nil_of_mem he)

/-- C7 counterexample: on a header-only input (file present, all required
columns, zero data rows) the pipeline does not stop before the
extreme-lookup step: it persists the averages view and the top-5 view and
then fails inside the extreme lookup itself, with the empty-argmax error
that Series.idxmax raises, rather than with any earlier error. -/
theorem run_header_only_reaches_lookup :
    run hdrOnly
      = ([Effect.mkdir CHART_DIR, Effect.mkdir RESULT_DIR,
          Effect.write avgCsvPath, Effect.write topCsvPath],
         Except.error PipeError.emptyArgmax) := by
  decide

/-- C7 amended: on any input that exists, has no missing required column
and carries zero rows, the pipeline writes the averages and top-5 views and
then raises the empty-argmax error at the extreme-lookup step (not before
reaching it). -/
theorem run_empty_rows_spec (inp : Input) (h1 : inp.fileExists = true)
    (h2 : missingCols inp.columns = []) (h3 : inp.rows = []) :
    run inp = ([Effect.mkdir CHART_DIR, Effect.mkdir RESULT_DIR,
        Effect.write avgCsvPath, Effect.write topCsvPath],
      Except.error PipeError.emptyArgmax) := by
  obtain ⟨fe, cols, rws⟩ := inp
  have h1b : fe = true := h1
  have h3b : rws = [] := h3
  subst h1b
  subst h3b
  have h2b : missingCols cols = [] := h2
  unfold run
  rw [h2b]
  rfl

theorem run_empty_rows_spec_witness :
    run hdrOnly
      = ([Effect.mkdir CHART_DIR, Effect.mkdir RESULT_DIR,
          Effect.write avgCsvPath, Effect.write topCsvPath],
         Except.error PipeError.emptyArgmax) :=
  run_empty_rows_spec hdrOnly rfl (by decide) rfl

/-- C8: when a required column is absent the pipeline stops with a schema
error whose payload is exactly the sorted list of the missing required
column names, and the run has created the output directories but written no
file. -/
theorem run_missing_columns_spec (inp : Input) (h1 : inp.fileExists = true)
    (h2 : missingCols inp.columns ≠ []) :
    run inp = ([Effect.mkdir CHART_DIR, Effect.mkdir RESULT_DIR],
        Except.error (PipeError.missingColumns (missingCols inp.columns)))
    ∧ (∀ c, c ∈ missingCols inp.columns ↔
        (c ∈ NUM_COLS ++ CAT_COLS ∧ c ∉ inp.columns))
    ∧ ∀ pth, Effect.write pth ∉ (run inp).1 := by
  have hrun : run inp
      = ([Effect.mkdir CHART_DIR, Effect.mkdir RESULT_DIR],
         Except.error (PipeError.missingColumns (missingCols inp.columns))) := by
    have hie : (missingCols inp.columns).isEmpty = false := by
      simp [h2]
    simp [run, h1, hie]
  refine ⟨hrun, ?_, ?_⟩
  · intro c
    rw [missingCols, mem_sortedKeys ltStr ltStr_tri, List.mem_filter]
    simp
  · intro pth
    rw [hrun]
    simp

theorem run_missing_columns_spec_witness :
    run wMiss = ([Effect.mkdir CHART_DIR, Effect.mkdir RESULT_DIR],
      Except.error (PipeError.missingColumns (missingCols wMiss.columns))) :=
  (run_missing_columns_spec wMiss rfl (by decide)).1

/-- C9: the entire transform is a function of the parsed input alone, so
two runs over the same input produce the same effect trace, the same
result, and identical contents for every persisted view; with a fixed
rendering of each view to CSV bytes, the written files are byte-identical
across the two runs. -/
theorem run_deterministic (inp1 inp2 : Input) (h : inp1 = inp2) :
    run inp1 = run inp2
    ∧ avg_macros (imputeRows inp1.rows) = avg_macros (imputeRows inp2.rows)
    ∧ top_protein (imputeRows inp1.rows) = top_protein (imputeRows inp2.rows)
    ∧ most_common_cuisines (imputeRows inp1.rows)
        = most_common_cuisines (imputeRows inp2.rows)
    ∧ idxmaxProtein (avg_macros (imputeRows inp1.rows))
        = idxmaxProtein (avg_macros (imputeRows inp2.rows)) := by
  rw [h]
  exact ⟨rfl, rfl, rfl, rfl, rfl⟩

theorem run_deterministic_witness :
    run wIn = run wIn :=
  (run_deterministic wIn wIn rfl).1

/-- C10: every run creates the chart and result directories as its first
two effects, before the source-file and schema checks, and a run that
aborts with the missing-source or the missing-column error performs
exactly those two directory creations and writes nothing else. -/
theorem run_dirs_first (inp : Input) :
    (run inp).1.take 2 = [Effect.mkdir CHART_DIR, Effect.mkdir RESULT_DIR]
    ∧ ((run inp).2 = Except.error PipeError.fileNotFound →
        (run inp).1 = [Effect.mkdir CHART_DIR, Effect.mkdir RESULT_DIR])
    ∧ ∀ m, (run inp).2 = Except.error (PipeError.missingColumns m) →
        (run inp).1 = [Effect.mkdir CHART_DIR, Effect.mkdir RESULT_DIR] := by
  cases hfe : inp.fileExists with
  | false =>
    have hrun : run inp
        = ([Effect.mkdir CHART_DIR, Effect.mkdir RESULT_DIR],
           Except.error PipeError.fileNotFound) := by
      simp [run, hfe]
    rw [hrun]
    exact ⟨rfl, fun _ => rfl, fun m _ => rfl⟩
  | true =>
    cases hie : (missingCols inp.columns).isEmpty with
    | false =>
      have hrun : run inp
          = ([Effect.mkdir CHART_DIR, Effect.mkdir RESULT_DIR],
             Except.error (PipeError.missingColumns (missingCols inp.columns))) := by
        simp [run, hfe, hie]
      rw [hrun]
      exact ⟨rfl, fun _ => rfl, fun m _ => rfl⟩
    | true =>
      cases hidx : idxmaxProtein (avg_macros (imputeRows inp.rows)) with
      | none =>
        have hrun : run inp
            = ([Effect.mkdir CHART_DIR, Effect.mkdir RESULT_DIR,
                Effect.write avgCsvPath, Effect.write topCsvPath],
               Except.error PipeError.emptyArgmax) := by
          simp [run, hfe, hie, hidx]
        rw [hrun]
        refine ⟨rfl, ?_, ?_⟩
        · intro hc
          simp at hc
        · intro m hc
          simp at hc
      | some best =>
        have hrun : run inp
            = ([Effect.mkdir CHART_DIR, Effect.mkdir RESULT_DIR,
                Effect.write avgCsvPath, Effect.write topCsvPath,
                Effect.write highestTxtPath, Effect.write cuisineCsvPath,
                Effect.write barPngPath, Effect.write heatPngPath,
                Effect.write scatterPngPath],
               Except.ok ⟨(imputeRows inp.rows).length, best.diet_type,
                 best.protein_g.getD 0⟩) := by
          simp [run, hfe, hie, hidx]
        rw [hrun]
        refine ⟨rfl, ?_, ?_⟩
        · intro hc
          simp at hc
        · intro m hc
          simp at hc

theorem run_dirs_first_witness :
    (run wNoFile).1 = [Effect.mkdir CHART_DIR, Effect.mkdir RESULT_DIR] :=
  (run_dirs_first wNoFile).2.1 rfl
